import Mathlib

/-! # QPU Sniff: instruction unpacking, signature matching and scanning

A shallow embedding of `qpu-sniff.c`.

* A `uint32_t` is a natural number. The decoders use only `>>`, `&` and `==`,
  which stay below `2^32` on 32-bit inputs; where unsigned arithmetic can wrap
  (the counter of `show_qpu_fragment`, the lengths `(size/4)-8` and
  `(size-VC_MEM_IMAGE)/4`) the reduction modulo `2^32` is written out, and an
  `int` is an integer converted with `toUInt32` and `toInt32`.
* A pointer `uint32_t *inst` is the view `inst : Nat → Nat` of memory from
  that pointer (`inst j` is the C expression `inst[j]`); `&buf[k]` is
  `ptrAt buf k`.
* Each `show_qpu_*` decoder prints one line with `printf`; its embedding
  returns the record of the values handed to `printf`.  `show_qpu_inst`
  returns the list of lines printed, one entry per decoder call.
* The loops of `qpuscan` and `show_qpu_fragment` take a number of passes they
  may use and return `none` when that number is too small; with the lines
  printed they return the indices of the buffer they read, in order.
-/

namespace QpuSniff

/-! ## Definitions -/

/-- The view of memory from `&buf[k]`. -/
def ptrAt (buf : Nat → Nat) (k : Nat) : Nat → Nat :=
  fun j => buf (k + j)

/-- The two-word view `{i0, i1}` of an instruction pair. -/
def instPair (i0 i1 : Nat) : Nat → Nat :=
  fun j => if j = 0 then i0 else i1

/-- `is_qpu_nop`: the two words at `inst` are the canonical no-op. -/
def is_qpu_nop (inst : Nat → Nat) : Bool :=
  (inst 0 == 0x009e7000) && (inst 1 == 0x100009e7)

/-- `is_qpu_end`: the words at `inst` are the program-end signature. -/
def is_qpu_end (inst : Nat → Nat) : Bool :=
  (inst 0 == 0x009e7000) && (inst 1 == 0x300009e7)
    && (inst 2 == 0x009e7000) && (inst 3 == 0x100009e7)
    && (inst 4 == 0x009e7000) && ((inst 5 == 0x100009e7) || (inst 5 == 0x500009e7))

/-- The values `show_qpu_add_mul` prints. -/
structure AddMulFields where
  mulop : Nat
  addop : Nat
  ra : Nat
  rb : Nat
  adda : Nat
  addb : Nat
  mula : Nat
  mulb : Nat
  op : Nat
  packbits : Nat
  addcc : Nat
  mulcc : Nat
  F : Nat
  X : Nat
  wa : Nat
  wb : Nat
  deriving DecidableEq

/-- The values `show_qpu_branch` prints. -/
structure BranchFields where
  addr : Nat
  unknown : Nat
  cond : Nat
  pcrel : Nat
  addreg : Nat
  ra : Nat
  X : Nat
  wa : Nat
  wb : Nat
  deriving DecidableEq

/-- The values `show_qpu_imm32` prints. -/
structure Imm32Fields where
  data : Nat
  unknown : Nat
  addcc : Nat
  mulcc : Nat
  F : Nat
  X : Nat
  wa : Nat
  wb : Nat
  deriving DecidableEq

/-- `show_qpu_add_mul`. -/
def show_qpu_add_mul (i0 i1 : Nat) : AddMulFields :=
  { mulop := (i0 >>> 29) &&& 0x7
    addop := (i0 >>> 24) &&& 0x1f
    ra := (i0 >>> 18) &&& 0x3f
    rb := (i0 >>> 12) &&& 0x3f
    adda := (i0 >>> 9) &&& 0x07
    addb := (i0 >>> 6) &&& 0x07
    mula := (i0 >>> 3) &&& 0x07
    mulb := (i0 >>> 0) &&& 0x07
    op := (i1 >>> 28) &&& 0x0f
    packbits := (i1 >>> 20) &&& 0xff
    addcc := (i1 >>> 17) &&& 0x07
    mulcc := (i1 >>> 14) &&& 0x07
    F := (i1 >>> 13) &&& 0x01
    X := (i1 >>> 12) &&& 0x01
    wa := (i1 >>> 6) &&& 0x3f
    wb := (i1 >>> 0) &&& 0x3f }

/-- `show_qpu_branch`. -/
def show_qpu_branch (i0 i1 : Nat) : BranchFields :=
  { addr := i0
    unknown := (i1 >>> 24) &&& 0x0f
    cond := (i1 >>> 20) &&& 0x0f
    pcrel := (i1 >>> 19) &&& 0x01
    addreg := (i1 >>> 18) &&& 0x01
    ra := (i1 >>> 13) &&& 0x1f
    X := (i1 >>> 12) &&& 0x01
    wa := (i1 >>> 6) &&& 0x3f
    wb := (i1 >>> 0) &&& 0x3f }

/-- `show_qpu_imm32`. -/
def show_qpu_imm32 (i0 i1 : Nat) : Imm32Fields :=
  { data := i0
    unknown := (i1 >>> 20) &&& 0xff
    addcc := (i1 >>> 17) &&& 0x07
    mulcc := (i1 >>> 14) &&& 0x07
    F := (i1 >>> 13) &&& 0x01
    X := (i1 >>> 12) &&& 0x01
    wa := (i1 >>> 6) &&& 0x3f
    wb := (i1 >>> 0) &&& 0x3f }

/-- One line printed by `show_qpu_inst`: which decoder ran and what it printed. -/
inductive Decoded where
  | add_mul (f : AddMulFields)
  | branch (f : BranchFields)
  | imm32 (f : Imm32Fields)
  deriving DecidableEq

/-- `show_qpu_inst`: three independent `if` statements on
`op = (i1 >> 24) & 0xf`, each calling one decoder. -/
def show_qpu_inst (inst : Nat → Nat) : List Decoded :=
  let i0 := inst 0
  let i1 := inst 1
  let op := (i1 >>> 24) &&& 0xf
  (if op < 14 then [Decoded.add_mul (show_qpu_add_mul i0 i1)] else [])
    ++ (if op = 14 then [Decoded.branch (show_qpu_branch i0 i1)] else [])
    ++ (if op = 15 then [Decoded.imm32 (show_qpu_imm32 i0 i1)] else [])

/-- Bits `hi:lo` (inclusive, bit 0 the least significant) of the word `w`,
as the field table of the specification reads them. -/
def bitsOf (w hi lo : Nat) : Nat :=
  w / 2 ^ lo % 2 ^ (hi + 1 - lo)

/-- The word `w` with bit `b` inverted. -/
def flipBit (w b : Nat) : Nat :=
  w ^^^ (1 <<< b)

/-- The buffer `buf` with the word at index `k` replaced by `v`. -/
def setWord (buf : Nat → Nat) (k v : Nat) : Nat → Nat :=
  fun j => if j = k then v else buf j

/-- The shape the specification assigns to an opcode nibble. -/
inductive Shape where
  | AluOp
  | Branch
  | Immediate
  deriving DecidableEq

/-- The decoder that produced a printed line. -/
def Decoded.shape : Decoded → Shape
  | .add_mul _ => .AluOp
  | .branch _ => .Branch
  | .imm32 _ => .Immediate

/-- The shape mapping of the specification: opcode nibble below 14 is an ALU
operation, 14 a branch, anything else (15) an immediate. -/
def specShape (op : Nat) : Shape :=
  if op < 14 then .AluOp else if op = 14 then .Branch else .Immediate

/-- The six words of the program-end signature with terminal word `W`. -/
def endSig (W : Nat) : List Nat :=
  [0x009e7000, 0x300009e7, 0x009e7000, 0x100009e7, 0x009e7000, W]

/-- The buffer `buf` with the words `ws` written at indices `k, k+1, ...`. -/
def putWords (buf : Nat → Nat) (k : Nat) (ws : List Nat) : Nat → Nat :=
  fun j => if k ≤ j ∧ j < k + ws.length then ws.getD (j - k) 0 else buf j

/-- Every field of an ALU record fits the width the field table gives it. -/
def AddMulFields.InRange (f : AddMulFields) : Prop :=
  f.mulop < 2 ^ 3 ∧ f.addop < 2 ^ 5 ∧ f.ra < 2 ^ 6 ∧ f.rb < 2 ^ 6 ∧
  f.adda < 2 ^ 3 ∧ f.addb < 2 ^ 3 ∧ f.mula < 2 ^ 3 ∧ f.mulb < 2 ^ 3 ∧
  f.op < 2 ^ 4 ∧ f.packbits < 2 ^ 8 ∧ f.addcc < 2 ^ 3 ∧ f.mulcc < 2 ^ 3 ∧
  f.F < 2 ^ 1 ∧ f.X < 2 ^ 1 ∧ f.wa < 2 ^ 6 ∧ f.wb < 2 ^ 6

/-- Every field of a branch record fits the width the field table gives it. -/
def BranchFields.InRange (f : BranchFields) : Prop :=
  f.addr < 2 ^ 32 ∧ f.unknown < 2 ^ 4 ∧ f.cond < 2 ^ 4 ∧ f.pcrel < 2 ^ 1 ∧
  f.addreg < 2 ^ 1 ∧ f.ra < 2 ^ 5 ∧ f.X < 2 ^ 1 ∧ f.wa < 2 ^ 6 ∧ f.wb < 2 ^ 6

/-- Every field of an immediate record fits the width the field table gives it. -/
def Imm32Fields.InRange (f : Imm32Fields) : Prop :=
  f.data < 2 ^ 32 ∧ f.unknown < 2 ^ 8 ∧ f.addcc < 2 ^ 3 ∧ f.mulcc < 2 ^ 3 ∧
  f.F < 2 ^ 1 ∧ f.X < 2 ^ 1 ∧ f.wa < 2 ^ 6 ∧ f.wb < 2 ^ 6

instance (f : AddMulFields) : Decidable f.InRange := by
  unfold AddMulFields.InRange; infer_instance

instance (f : BranchFields) : Decidable f.InRange := by
  unfold BranchFields.InRange; infer_instance

instance (f : Imm32Fields) : Decidable f.InRange := by
  unfold Imm32Fields.InRange; infer_instance

/-- The pair `(i0, i1)` that holds each ALU field at its position in the
field table of the specification (the opcode `op` in bits 31:28 of `i1`). -/
def encodeAluOp (f : AddMulFields) : Nat × Nat :=
  (f.mulop * 2 ^ 29 + f.addop * 2 ^ 24 + f.ra * 2 ^ 18 + f.rb * 2 ^ 12
      + f.adda * 2 ^ 9 + f.addb * 2 ^ 6 + f.mula * 2 ^ 3 + f.mulb,
   f.op * 2 ^ 28 + f.packbits * 2 ^ 20 + f.addcc * 2 ^ 17 + f.mulcc * 2 ^ 14
      + f.F * 2 ^ 13 + f.X * 2 ^ 12 + f.wa * 2 ^ 6 + f.wb)

/-- The pair `(i0, i1)` that holds each branch field at its position in the
field table of the specification, with opcode nibble 14 in bits 31:28 of `i1`. -/
def encodeBranch (f : BranchFields) : Nat × Nat :=
  (f.addr,
   14 * 2 ^ 28 + f.unknown * 2 ^ 24 + f.cond * 2 ^ 20 + f.pcrel * 2 ^ 19
      + f.addreg * 2 ^ 18 + f.ra * 2 ^ 13 + f.X * 2 ^ 12 + f.wa * 2 ^ 6 + f.wb)

/-- The pair `(i0, i1)` that holds each immediate field at its position in the
field table of the specification, with opcode nibble 15 in bits 31:28 of `i1`. -/
def encodeImmediate (f : Imm32Fields) : Nat × Nat :=
  (f.data,
   15 * 2 ^ 28 + f.unknown * 2 ^ 20 + f.addcc * 2 ^ 17 + f.mulcc * 2 ^ 14
      + f.F * 2 ^ 13 + f.X * 2 ^ 12 + f.wa * 2 ^ 6 + f.wb)

/-- An ALU record within the table widths: opcode 0, packbits `0xE0`, the
other fields 0. -/
def aluPackbitsE0 : AddMulFields :=
  { mulop := 0, addop := 0, ra := 0, rb := 0, adda := 0, addb := 0, mula := 0,
    mulb := 0, op := 0, packbits := 0xE0, addcc := 0, mulcc := 0, F := 0, X := 0,
    wa := 0, wb := 0 }

/-- A branch record within the table widths: every field 0. -/
def branchZero : BranchFields :=
  { addr := 0, unknown := 0, cond := 0, pcrel := 0, addreg := 0, ra := 0, X := 0,
    wa := 0, wb := 0 }

/-- A zero-filled buffer holding the program-end signature with terminal word
`W` at index 0. -/
def endWindow (W : Nat) : Nat → Nat :=
  putWords (fun _ => 0) 0 (endSig W)

/-! ### The scan loop of `qpuscan` -/

/-- `VC_MEM_IMAGE`: the bytes at the end of the mapped memory that are not
scanned. -/
def VC_MEM_IMAGE : Nat := 18706228

/-- The indices `is_qpu_end` reads through `inst`, in order. `&&` and `||`
stop at the first operand that decides the result, so a word is read only when
every test before it succeeded; the second test of `inst[5]` reads it again. -/
def is_qpu_end_reads (inst : Nat → Nat) : List Nat :=
  0 :: (if inst 0 == 0x009e7000 then
    1 :: (if inst 1 == 0x300009e7 then
      2 :: (if inst 2 == 0x009e7000 then
        3 :: (if inst 3 == 0x100009e7 then
          4 :: (if inst 4 == 0x009e7000 then
            5 :: (if inst 5 == 0x100009e7 then [] else [5])
          else [])
        else [])
      else [])
    else [])
  else [])

/-- One line printed by the scan loop: the value `i*4` and the words the inner
loop `for (j = 0; j < 4; j++)` prints, `vc[i+j*2]` and `vc[i+j*2+1]`. -/
structure ScanLine where
  offset : Nat
  words : List Nat
  deriving DecidableEq

/-- The line the scan loop prints for a match at word index `i`. -/
def scanLine (vc : Nat → Nat) (i : Nat) : ScanLine :=
  { offset := i * 4
    words := (List.range 4).flatMap (fun j => [vc (i + j * 2), vc (i + j * 2 + 1)]) }

/-- The indices of `vc` read while printing the line for index `i`. -/
def scanLineReads (i : Nat) : List Nat :=
  (List.range 4).flatMap (fun j => [i + j * 2, i + j * 2 + 1])

/-- One pass through the body of the scan loop at index `i`: the lines printed
and the indices of `vc` read. -/
def qpuscan_body (vc : Nat → Nat) (i : Nat) : List ScanLine × List Nat :=
  if is_qpu_end (ptrAt vc i) then
    ([scanLine vc i], (is_qpu_end_reads (ptrAt vc i)).map (fun r => i + r) ++ scanLineReads i)
  else
    ([], (is_qpu_end_reads (ptrAt vc i)).map (fun r => i + r))

/-- The loop `for (int i = 0; i < n; i++)` of `qpuscan` from counter value `i`,
with `n = (size-VC_MEM_IMAGE)/4`: the lines printed and the indices of `vc`
read, or `none` when `fuel` passes do not reach `i >= n`. The counter is an
`int`; it is exact here as long as it stays below `2^31`. -/
def qpuscan_loop (vc : Nat → Nat) (n : Nat) : Nat → Nat → Option (List ScanLine × List Nat)
  | 0, i => if i < n then none else some ([], [])
  | fuel + 1, i =>
    if i < n then
      match qpuscan_loop vc n fuel (i + 1) with
      | none => none
      | some (ls, rs) => some ((qpuscan_body vc i).1 ++ ls, (qpuscan_body vc i).2 ++ rs)
    else some ([], [])

/-- The scan loop run from `i = 0` with `n` passes allowed. -/
def qpuscan_scan (vc : Nat → Nat) (n : Nat) : Option (List ScanLine × List Nat) :=
  qpuscan_loop vc n n 0

/-- The loop bound `(size-VC_MEM_IMAGE)/4`, computed on a 32-bit
`unsigned long` (the subtraction wraps modulo `2^32`). -/
def scanLength (size : Nat) : Nat :=
  ((size + 2 ^ 32 - VC_MEM_IMAGE) % 2 ^ 32) / 4

/-- The word indices below `n` at which `is_qpu_end` holds, in ascending order. -/
def scanMatches (vc : Nat → Nat) (n : Nat) : List Nat :=
  (List.range n).filter (fun i => is_qpu_end (ptrAt vc i))

/-- The zero-filled buffer. -/
def zeroBuf : Nat → Nat :=
  fun _ => 0

/-! ### Disassembling a fragment -/

/-- An `int` converted to `uint32_t`. -/
def toUInt32 (x : Int) : Nat :=
  (x % 2 ^ 32).toNat

/-- A `uint32_t` converted to `int` (two's complement). -/
def toInt32 (u : Nat) : Int :=
  if u % 2 ^ 32 < 2 ^ 31 then ((u % 2 ^ 32 : Nat) : Int) else ((u % 2 ^ 32 : Nat) : Int) - 2 ^ 32

/-- One line printed by `show_qpu_fragment`: the counter `i`, the words
`inst[i]` and `inst[i+1]`, and what `show_qpu_inst(&inst[i])` prints. -/
structure FragLine where
  offset : Nat
  word0 : Nat
  word1 : Nat
  decoded : List Decoded
  deriving DecidableEq

/-- The line `show_qpu_fragment` prints at counter value `i` (a `uint32_t`, so
`i+1` wraps modulo `2^32`). -/
def fragLine (inst : Nat → Nat) (i : Nat) : FragLine :=
  { offset := i
    word0 := inst i
    word1 := inst ((i + 1) % 2 ^ 32)
    decoded := show_qpu_inst (ptrAt inst i) }

/-- The indices of `inst` read at counter value `i`: `inst[i]` and `inst[i+1]`
for `printf`, then `inst[0]` and `inst[1]` of `&inst[i]` in `show_qpu_inst`. -/
def fragReads (i : Nat) : List Nat :=
  [i, (i + 1) % 2 ^ 32, i + 0, i + 1]

/-- The loop `for(;i<length; i+=2)` of `show_qpu_fragment` from counter value
`i`. The counter is a `uint32_t` and `length` an `int`, so the comparison is
made on `length` converted to `uint32_t`, and `i+=2` wraps modulo `2^32`. The
result is the lines printed and the indices read, or `none` when `fuel` passes
do not reach the end of the loop. -/
def show_qpu_fragment_loop (inst : Nat → Nat) (length : Int) :
    Nat → Nat → Option (List FragLine × List Nat)
  | 0, i => if i < toUInt32 length then none else some ([], [])
  | fuel + 1, i =>
    if i < toUInt32 length then
      match show_qpu_fragment_loop inst length fuel ((i + 2) % 2 ^ 32) with
      | none => none
      | some (ls, rs) => some (fragLine inst i :: ls, fragReads i ++ rs)
    else some ([], [])

/-- `show_qpu_fragment`: the loop from `i = 0`. -/
def show_qpu_fragment (inst : Nat → Nat) (length : Int) (fuel : Nat) :
    Option (List FragLine × List Nat) :=
  show_qpu_fragment_loop inst length fuel 0

/-- The length `qpu_dis_file` passes: `(size/4)-8` on `uint32_t`, converted to
the `int` parameter. -/
def disLength (size : Nat) : Int :=
  toInt32 ((size / 4 + 2 ^ 32 - 8) % 2 ^ 32)

/-- `qpu_dis_file` after `file_load`: `fragment` is `none` when the file could
not be read (nothing is decoded), else the words of the file; `size` is the
file size in bytes as a `uint32_t`. The indices read are relative to
`fragment+8`. -/
def qpu_dis_file (fragment : Option (Nat → Nat)) (size fuel : Nat) :
    Option (List FragLine × List Nat) :=
  match fragment with
  | none => some ([], [])
  | some frag => show_qpu_fragment (ptrAt frag 8) (disLength size) fuel

/-- The error conditions the specification names for `decode_fragment`. -/
inductive FragmentError where
  | MalformedLength
  | OutOfBounds
  deriving DecidableEq

/-- The record the specification gives for pair `k`: offset `2k`, the words
`words[2k]`, `words[2k+1]`, and their decode. -/
def specRecord (words : Nat → Nat) (k : Nat) : FragLine :=
  { offset := 2 * k
    word0 := words (2 * k)
    word1 := words (2 * k + 1)
    decoded := show_qpu_inst (instPair (words (2 * k)) (words (2 * k + 1))) }

/-- The contract of `decode_fragment` in the words of the specification: an odd
or negative length fails with `MalformedLength`, a length above the buffer
size fails with `OutOfBounds`, otherwise one record per pair. -/
def decode_fragment_spec (words : Nat → Nat) (bufSize : Nat) (length : Int) :
    Except FragmentError (List FragLine) :=
  if length < 0 ∨ length % 2 = 1 then Except.error FragmentError.MalformedLength
  else if (bufSize : Int) < length then Except.error FragmentError.OutOfBounds
  else Except.ok ((List.range (length.toNat / 2)).map (specRecord words))

/-- The words `0, 1, 2, ...`: word `j` of the buffer is `j`. -/
def countBuf : Nat → Nat :=
  fun j => j

/-! ## Theorems -/

/-! ### Bit slices -/

/-- Shifting right by `k` and masking with `2^n - 1` reads `n` bits from bit `k`. -/
theorem shiftRight_and_mask (i k n : Nat) :
    (i >>> k) &&& (2 ^ n - 1) = i / 2 ^ k % 2 ^ n := by
  rw [Nat.and_pow_two_sub_one_eq_mod, Nat.shiftRight_eq_div_pow]

/-- Bit `j` of `bitsOf w hi lo` is bit `lo + j` of `w` inside the slice and
zero above it: `bitsOf` is the slice `hi:lo`. -/
theorem testBit_bitsOf (w hi lo j : Nat) :
    (bitsOf w hi lo).testBit j = (decide (j < hi + 1 - lo) && w.testBit (lo + j)) := by
  unfold bitsOf
  rw [Nat.testBit_mod_two_pow, ← Nat.shiftRight_eq_div_pow, Nat.testBit_shiftRight]

/-- A slice of `hi + 1 - lo` bits is below `2 ^ (hi + 1 - lo)`. -/
theorem bitsOf_lt (w hi lo : Nat) : bitsOf w hi lo < 2 ^ (hi + 1 - lo) :=
  Nat.mod_lt _ (Nat.two_pow_pos _)

/-- The C expression `(i >> lo) & (2^n - 1)` is the slice `lo + n - 1 : lo`. -/
theorem shiftRight_and_eq_bitsOf (i lo n : Nat) (hn : 0 < n) :
    (i >>> lo) &&& (2 ^ n - 1) = bitsOf i (lo + n - 1) lo := by
  unfold bitsOf
  rw [shiftRight_and_mask]
  congr 2
  omega

/-- The record `show_qpu_add_mul` prints, field by field as bit slices. -/
theorem show_qpu_add_mul_eq (i0 i1 : Nat) :
    show_qpu_add_mul i0 i1 =
      { mulop := bitsOf i0 31 29, addop := bitsOf i0 28 24, ra := bitsOf i0 23 18,
        rb := bitsOf i0 17 12, adda := bitsOf i0 11 9, addb := bitsOf i0 8 6,
        mula := bitsOf i0 5 3, mulb := bitsOf i0 2 0, op := bitsOf i1 31 28,
        packbits := bitsOf i1 27 20, addcc := bitsOf i1 19 17, mulcc := bitsOf i1 16 14,
        F := bitsOf i1 13 13, X := bitsOf i1 12 12, wa := bitsOf i1 11 6,
        wb := bitsOf i1 5 0 } := by
  simp only [show_qpu_add_mul, AddMulFields.mk.injEq]
  exact ⟨shiftRight_and_eq_bitsOf i0 29 3 (by decide), shiftRight_and_eq_bitsOf i0 24 5 (by decide),
     shiftRight_and_eq_bitsOf i0 18 6 (by decide), shiftRight_and_eq_bitsOf i0 12 6 (by decide),
     shiftRight_and_eq_bitsOf i0 9 3 (by decide), shiftRight_and_eq_bitsOf i0 6 3 (by decide),
     shiftRight_and_eq_bitsOf i0 3 3 (by decide), shiftRight_and_eq_bitsOf i0 0 3 (by decide),
     shiftRight_and_eq_bitsOf i1 28 4 (by decide), shiftRight_and_eq_bitsOf i1 20 8 (by decide),
     shiftRight_and_eq_bitsOf i1 17 3 (by decide), shiftRight_and_eq_bitsOf i1 14 3 (by decide),
     shiftRight_and_eq_bitsOf i1 13 1 (by decide), shiftRight_and_eq_bitsOf i1 12 1 (by decide),
     shiftRight_and_eq_bitsOf i1 6 6 (by decide), shiftRight_and_eq_bitsOf i1 0 6 (by decide)⟩

/-- The record `show_qpu_branch` prints, field by field as bit slices. -/
theorem show_qpu_branch_eq (i0 i1 : Nat) :
    show_qpu_branch i0 i1 =
      { addr := i0, unknown := bitsOf i1 27 24, cond := bitsOf i1 23 20,
        pcrel := bitsOf i1 19 19, addreg := bitsOf i1 18 18, ra := bitsOf i1 17 13,
        X := bitsOf i1 12 12, wa := bitsOf i1 11 6, wb := bitsOf i1 5 0 } := by
  simp only [show_qpu_branch, BranchFields.mk.injEq, true_and]
  exact ⟨shiftRight_and_eq_bitsOf i1 24 4 (by decide), shiftRight_and_eq_bitsOf i1 20 4 (by decide),
    shiftRight_and_eq_bitsOf i1 19 1 (by decide), shiftRight_and_eq_bitsOf i1 18 1 (by decide),
    shiftRight_and_eq_bitsOf i1 13 5 (by decide), shiftRight_and_eq_bitsOf i1 12 1 (by decide),
    shiftRight_and_eq_bitsOf i1 6 6 (by decide), shiftRight_and_eq_bitsOf i1 0 6 (by decide)⟩

/-- The record `show_qpu_imm32` prints, field by field as bit slices. -/
theorem show_qpu_imm32_eq (i0 i1 : Nat) :
    show_qpu_imm32 i0 i1 =
      { data := i0, unknown := bitsOf i1 27 20, addcc := bitsOf i1 19 17,
        mulcc := bitsOf i1 16 14, F := bitsOf i1 13 13, X := bitsOf i1 12 12,
        wa := bitsOf i1 11 6, wb := bitsOf i1 5 0 } := by
  simp only [show_qpu_imm32, Imm32Fields.mk.injEq, true_and]
  exact ⟨shiftRight_and_eq_bitsOf i1 20 8 (by decide), shiftRight_and_eq_bitsOf i1 17 3 (by decide),
    shiftRight_and_eq_bitsOf i1 14 3 (by decide), shiftRight_and_eq_bitsOf i1 13 1 (by decide),
    shiftRight_and_eq_bitsOf i1 12 1 (by decide), shiftRight_and_eq_bitsOf i1 6 6 (by decide),
    shiftRight_and_eq_bitsOf i1 0 6 (by decide)⟩

/-- Decoding an encoded ALU record with `show_qpu_add_mul` gives the record back. -/
theorem show_qpu_add_mul_encodeAluOp (f : AddMulFields) (hf : f.InRange) :
    show_qpu_add_mul (encodeAluOp f).1 (encodeAluOp f).2 = f := by
  obtain ⟨h1, h2, h3, h4, h5, h6, h7, h8, h9, h10, h11, h12, h13, h14, h15, h16⟩ := hf
  rw [show_qpu_add_mul_eq]
  cases f
  simp only [encodeAluOp, bitsOf, AddMulFields.mk.injEq] at *
  norm_num at *
  refine ⟨?_, ?_, ?_, ?_, ?_, ?_, ?_, ?_, ?_, ?_, ?_, ?_, ?_, ?_, ?_, ?_⟩ <;> omega

/-- Decoding an encoded branch record with `show_qpu_branch` gives the record back. -/
theorem show_qpu_branch_encodeBranch (f : BranchFields) (hf : f.InRange) :
    show_qpu_branch (encodeBranch f).1 (encodeBranch f).2 = f := by
  obtain ⟨h1, h2, h3, h4, h5, h6, h7, h8, h9⟩ := hf
  rw [show_qpu_branch_eq]
  cases f
  simp only [encodeBranch, bitsOf, BranchFields.mk.injEq, true_and] at *
  norm_num at *
  refine ⟨?_, ?_, ?_, ?_, ?_, ?_, ?_, ?_⟩ <;> omega

/-- Decoding an encoded immediate record with `show_qpu_imm32` gives the record back. -/
theorem show_qpu_imm32_encodeImmediate (f : Imm32Fields) (hf : f.InRange) :
    show_qpu_imm32 (encodeImmediate f).1 (encodeImmediate f).2 = f := by
  obtain ⟨h1, h2, h3, h4, h5, h6, h7, h8⟩ := hf
  rw [show_qpu_imm32_eq]
  cases f
  simp only [encodeImmediate, bitsOf, Imm32Fields.mk.injEq, true_and] at *
  norm_num at *
  refine ⟨?_, ?_, ?_, ?_, ?_, ?_, ?_⟩ <;> omega

/-! ### Shape selection in `show_qpu_inst` -/

/-- The selector of `show_qpu_inst` is a 4-bit value. -/
theorem selector_lt (i1 : Nat) : (i1 >>> 24) &&& 0xf < 16 :=
  Nat.lt_succ_of_le Nat.and_le_right

/-- What `show_qpu_inst` computes: one printed line, chosen by
`(i1 >> 24) & 0xf`, which is the slice 27:24 of `i1`. -/
theorem show_qpu_inst_eq (inst : Nat → Nat) :
    show_qpu_inst inst =
      [if bitsOf (inst 1) 27 24 < 14 then Decoded.add_mul (show_qpu_add_mul (inst 0) (inst 1))
       else if bitsOf (inst 1) 27 24 = 14 then Decoded.branch (show_qpu_branch (inst 0) (inst 1))
       else Decoded.imm32 (show_qpu_imm32 (inst 0) (inst 1))] := by
  have hsel : (inst 1 >>> 24) &&& 0xf = bitsOf (inst 1) 27 24 :=
    shiftRight_and_eq_bitsOf (inst 1) 24 4 (by decide)
  have hlt : bitsOf (inst 1) 27 24 < 16 := bitsOf_lt (inst 1) 27 24
  unfold show_qpu_inst
  simp only [hsel]
  by_cases h1 : bitsOf (inst 1) 27 24 < 14
  · have h2 : ¬ bitsOf (inst 1) 27 24 = 14 := by omega
    have h3 : ¬ bitsOf (inst 1) 27 24 = 15 := by omega
    simp [h1, h2, h3]
  · by_cases h2 : bitsOf (inst 1) 27 24 = 14
    · simp [h2]
    · have h3 : bitsOf (inst 1) 27 24 = 15 := by omega
      simp [h3]

/-- C1. `show_qpu_inst` does not select the shape from bits 31:28 of `i1`.
At `i0 = 0`, `i1 = 0x0E000000` bits 31:28 are 0 (below 14, an ALU operation
for the claim) and bits 27:24 are 14: `show_qpu_inst` calls `show_qpu_branch`.
At `i1 = 0x0F000000` bits 31:28 are 0 again and it calls `show_qpu_imm32`.
At `i1 = 0xE0000000` bits 31:28 are 14 and it calls `show_qpu_add_mul`, whose
own `op` field (bits 31:28) is 14. -/
theorem show_qpu_inst_selector_not_top_nibble :
    (bitsOf 0x0E000000 31 28 = 0 ∧ bitsOf 0x0E000000 27 24 = 14 ∧
     show_qpu_inst (instPair 0 0x0E000000) =
       [Decoded.branch (show_qpu_branch 0 0x0E000000)] ∧
     (show_qpu_inst (instPair 0 0x0E000000)).map Decoded.shape ≠
       [specShape (bitsOf 0x0E000000 31 28)]) ∧
    (bitsOf 0x0F000000 31 28 = 0 ∧ bitsOf 0x0F000000 27 24 = 15 ∧
     show_qpu_inst (instPair 0 0x0F000000) =
       [Decoded.imm32 (show_qpu_imm32 0 0x0F000000)]) ∧
    (bitsOf 0xE0000000 31 28 = 14 ∧ bitsOf 0xE0000000 27 24 = 0 ∧
     show_qpu_inst (instPair 0 0xE0000000) =
       [Decoded.add_mul (show_qpu_add_mul 0 0xE0000000)] ∧
     (show_qpu_add_mul 0 0xE0000000).op = 14) := by
  decide

/-- C2. At `i1 = 0xF0000000`, the prefix `1111 0000` that the layout comment
gives for branches, `show_qpu_inst` calls `show_qpu_add_mul` and does not call
`show_qpu_branch`. -/
theorem show_qpu_inst_branch_prefix_decoded_as_add_mul :
    bitsOf 0xF0000000 31 28 = 0b1111 ∧ bitsOf 0xF0000000 27 24 = 0b0000 ∧
    show_qpu_inst (instPair 0 0xF0000000) =
      [Decoded.add_mul (show_qpu_add_mul 0 0xF0000000)] ∧
    Decoded.branch (show_qpu_branch 0 0xF0000000) ∉
      show_qpu_inst (instPair 0 0xF0000000) := by
  decide

/-- C3. For every instruction pair `show_qpu_inst` calls exactly one of the
three decoders: its output is a single line, produced by `show_qpu_add_mul`,
by `show_qpu_branch` or by `show_qpu_imm32` on the pair `(inst[0], inst[1])`. -/
theorem show_qpu_inst_exactly_one_decoder (inst : Nat → Nat) :
    (show_qpu_inst inst).length = 1 ∧
    (show_qpu_inst inst = [Decoded.add_mul (show_qpu_add_mul (inst 0) (inst 1))] ∨
     show_qpu_inst inst = [Decoded.branch (show_qpu_branch (inst 0) (inst 1))] ∨
     show_qpu_inst inst = [Decoded.imm32 (show_qpu_imm32 (inst 0) (inst 1))]) := by
  rw [show_qpu_inst_eq]
  refine ⟨rfl, ?_⟩
  by_cases h1 : bitsOf (inst 1) 27 24 < 14
  · left; simp [h1]
  · by_cases h2 : bitsOf (inst 1) 27 24 = 14
    · right; left; simp [h2]
    · right; right; simp [h1, h2]

/-! ### Field extraction -/

/-- C4. The fields `show_qpu_add_mul` computes are the bit slices of the field
table (from `i0`: mulop 31:29, addop 28:24, ra 23:18, rb 17:12, adda 11:9,
addb 8:6, mula 5:3, mulb 2:0; from `i1`: op 31:28, packbits 27:20, addcc 19:17,
mulcc 16:14, F 13, X 12, wa 11:6, wb 5:0), each below `2 ^ width`; at
`i0 = 0xE0000000`, `i1 = 0` this gives mulop 7 and the other `i0` fields 0. -/
theorem show_qpu_add_mul_fields (i0 i1 : Nat) :
    ((show_qpu_add_mul i0 i1).mulop = bitsOf i0 31 29 ∧
     (show_qpu_add_mul i0 i1).addop = bitsOf i0 28 24 ∧
     (show_qpu_add_mul i0 i1).ra = bitsOf i0 23 18 ∧
     (show_qpu_add_mul i0 i1).rb = bitsOf i0 17 12 ∧
     (show_qpu_add_mul i0 i1).adda = bitsOf i0 11 9 ∧
     (show_qpu_add_mul i0 i1).addb = bitsOf i0 8 6 ∧
     (show_qpu_add_mul i0 i1).mula = bitsOf i0 5 3 ∧
     (show_qpu_add_mul i0 i1).mulb = bitsOf i0 2 0 ∧
     (show_qpu_add_mul i0 i1).op = bitsOf i1 31 28 ∧
     (show_qpu_add_mul i0 i1).packbits = bitsOf i1 27 20 ∧
     (show_qpu_add_mul i0 i1).addcc = bitsOf i1 19 17 ∧
     (show_qpu_add_mul i0 i1).mulcc = bitsOf i1 16 14 ∧
     (show_qpu_add_mul i0 i1).F = bitsOf i1 13 13 ∧
     (show_qpu_add_mul i0 i1).X = bitsOf i1 12 12 ∧
     (show_qpu_add_mul i0 i1).wa = bitsOf i1 11 6 ∧
     (show_qpu_add_mul i0 i1).wb = bitsOf i1 5 0) ∧
    (show_qpu_add_mul i0 i1).InRange ∧
    show_qpu_add_mul 0xE0000000 0 =
      { mulop := 7, addop := 0, ra := 0, rb := 0, adda := 0, addb := 0, mula := 0,
        mulb := 0, op := 0, packbits := 0, addcc := 0, mulcc := 0, F := 0, X := 0,
        wa := 0, wb := 0 } := by
  have e : ((show_qpu_add_mul i0 i1).mulop = bitsOf i0 31 29 ∧
     (show_qpu_add_mul i0 i1).addop = bitsOf i0 28 24 ∧
     (show_qpu_add_mul i0 i1).ra = bitsOf i0 23 18 ∧
     (show_qpu_add_mul i0 i1).rb = bitsOf i0 17 12 ∧
     (show_qpu_add_mul i0 i1).adda = bitsOf i0 11 9 ∧
     (show_qpu_add_mul i0 i1).addb = bitsOf i0 8 6 ∧
     (show_qpu_add_mul i0 i1).mula = bitsOf i0 5 3 ∧
     (show_qpu_add_mul i0 i1).mulb = bitsOf i0 2 0 ∧
     (show_qpu_add_mul i0 i1).op = bitsOf i1 31 28 ∧
     (show_qpu_add_mul i0 i1).packbits = bitsOf i1 27 20 ∧
     (show_qpu_add_mul i0 i1).addcc = bitsOf i1 19 17 ∧
     (show_qpu_add_mul i0 i1).mulcc = bitsOf i1 16 14 ∧
     (show_qpu_add_mul i0 i1).F = bitsOf i1 13 13 ∧
     (show_qpu_add_mul i0 i1).X = bitsOf i1 12 12 ∧
     (show_qpu_add_mul i0 i1).wa = bitsOf i1 11 6 ∧
     (show_qpu_add_mul i0 i1).wb = bitsOf i1 5 0) :=
    ⟨shiftRight_and_eq_bitsOf i0 29 3 (by decide), shiftRight_and_eq_bitsOf i0 24 5 (by decide),
     shiftRight_and_eq_bitsOf i0 18 6 (by decide), shiftRight_and_eq_bitsOf i0 12 6 (by decide),
     shiftRight_and_eq_bitsOf i0 9 3 (by decide), shiftRight_and_eq_bitsOf i0 6 3 (by decide),
     shiftRight_and_eq_bitsOf i0 3 3 (by decide), shiftRight_and_eq_bitsOf i0 0 3 (by decide),
     shiftRight_and_eq_bitsOf i1 28 4 (by decide), shiftRight_and_eq_bitsOf i1 20 8 (by decide),
     shiftRight_and_eq_bitsOf i1 17 3 (by decide), shiftRight_and_eq_bitsOf i1 14 3 (by decide),
     shiftRight_and_eq_bitsOf i1 13 1 (by decide), shiftRight_and_eq_bitsOf i1 12 1 (by decide),
     shiftRight_and_eq_bitsOf i1 6 6 (by decide), shiftRight_and_eq_bitsOf i1 0 6 (by decide)⟩
  refine ⟨e, ?_, by decide⟩
  obtain ⟨e1, e2, e3, e4, e5, e6, e7, e8, e9, e10, e11, e12, e13, e14, e15, e16⟩ := e
  unfold AddMulFields.InRange
  rw [e1, e2, e3, e4, e5, e6, e7, e8, e9, e10, e11, e12, e13, e14, e15, e16]
  exact ⟨bitsOf_lt _ _ _, bitsOf_lt _ _ _, bitsOf_lt _ _ _, bitsOf_lt _ _ _,
    bitsOf_lt _ _ _, bitsOf_lt _ _ _, bitsOf_lt _ _ _, bitsOf_lt _ _ _,
    bitsOf_lt _ _ _, bitsOf_lt _ _ _, bitsOf_lt _ _ _, bitsOf_lt _ _ _,
    bitsOf_lt _ _ _, bitsOf_lt _ _ _, bitsOf_lt _ _ _, bitsOf_lt _ _ _⟩

/-- C6. The fields `show_qpu_branch` computes: addr is `i0` itself, and from
`i1` unknown is bits 27:24, cond 23:20, pcrel 19, addreg 18, ra 17:13, X 12,
wa 11:6, wb 5:0; two words `i1`, `j1` that agree on bits 27:0 (and so differ
at most in bits 31:28) give the same fields. -/
theorem show_qpu_branch_fields (i0 i1 j1 : Nat) (h : j1 % 2 ^ 28 = i1 % 2 ^ 28) :
    ((show_qpu_branch i0 i1).addr = i0 ∧
     (show_qpu_branch i0 i1).unknown = bitsOf i1 27 24 ∧
     (show_qpu_branch i0 i1).cond = bitsOf i1 23 20 ∧
     (show_qpu_branch i0 i1).pcrel = bitsOf i1 19 19 ∧
     (show_qpu_branch i0 i1).addreg = bitsOf i1 18 18 ∧
     (show_qpu_branch i0 i1).ra = bitsOf i1 17 13 ∧
     (show_qpu_branch i0 i1).X = bitsOf i1 12 12 ∧
     (show_qpu_branch i0 i1).wa = bitsOf i1 11 6 ∧
     (show_qpu_branch i0 i1).wb = bitsOf i1 5 0) ∧
    show_qpu_branch i0 j1 = show_qpu_branch i0 i1 := by
  have e : ∀ w : Nat, show_qpu_branch i0 w =
      { addr := i0, unknown := bitsOf w 27 24, cond := bitsOf w 23 20,
        pcrel := bitsOf w 19 19, addreg := bitsOf w 18 18, ra := bitsOf w 17 13,
        X := bitsOf w 12 12, wa := bitsOf w 11 6, wb := bitsOf w 5 0 } := by
    intro w
    simp only [show_qpu_branch, BranchFields.mk.injEq, true_and]
    exact ⟨shiftRight_and_eq_bitsOf w 24 4 (by decide), shiftRight_and_eq_bitsOf w 20 4 (by decide),
      shiftRight_and_eq_bitsOf w 19 1 (by decide), shiftRight_and_eq_bitsOf w 18 1 (by decide),
      shiftRight_and_eq_bitsOf w 13 5 (by decide), shiftRight_and_eq_bitsOf w 12 1 (by decide),
      shiftRight_and_eq_bitsOf w 6 6 (by decide), shiftRight_and_eq_bitsOf w 0 6 (by decide)⟩
  refine ⟨?_, ?_⟩
  · rw [e i1]
    exact ⟨rfl, rfl, rfl, rfl, rfl, rfl, rfl, rfl, rfl⟩
  · rw [e i1, e j1]
    simp only [bitsOf, BranchFields.mk.injEq, true_and]
    norm_num at h ⊢
    omega

/-- Witness for C6: `0x0EABCDEF` and `0xFEABCDEF` differ only in bits 31:28. -/
theorem show_qpu_branch_fields_witness :
    (0x0EABCDEF : Nat) % 2 ^ 28 = 0xFEABCDEF % 2 ^ 28 ∧
    (show_qpu_branch 0x12345678 0xFEABCDEF).addr = 0x12345678 ∧
    (show_qpu_branch 0x12345678 0xFEABCDEF).unknown = 0xE ∧
    show_qpu_branch 0x12345678 0x0EABCDEF = show_qpu_branch 0x12345678 0xFEABCDEF :=
  ⟨by decide,
   (show_qpu_branch_fields 0x12345678 0xFEABCDEF 0x0EABCDEF (by decide)).1.1,
   by decide,
   (show_qpu_branch_fields 0x12345678 0xFEABCDEF 0x0EABCDEF (by decide)).2⟩

/-- C7. The fields `show_qpu_imm32` computes: data is `i0` itself, and from
`i1` unknown is bits 27:20, addcc 19:17, mulcc 16:14, F 13, X 12, wa 11:6,
wb 5:0. -/
theorem show_qpu_imm32_fields (i0 i1 : Nat) :
    (show_qpu_imm32 i0 i1).data = i0 ∧
    (show_qpu_imm32 i0 i1).unknown = bitsOf i1 27 20 ∧
    (show_qpu_imm32 i0 i1).addcc = bitsOf i1 19 17 ∧
    (show_qpu_imm32 i0 i1).mulcc = bitsOf i1 16 14 ∧
    (show_qpu_imm32 i0 i1).F = bitsOf i1 13 13 ∧
    (show_qpu_imm32 i0 i1).X = bitsOf i1 12 12 ∧
    (show_qpu_imm32 i0 i1).wa = bitsOf i1 11 6 ∧
    (show_qpu_imm32 i0 i1).wb = bitsOf i1 5 0 :=
  ⟨rfl, shiftRight_and_eq_bitsOf i1 20 8 (by decide),
   shiftRight_and_eq_bitsOf i1 17 3 (by decide), shiftRight_and_eq_bitsOf i1 14 3 (by decide),
   shiftRight_and_eq_bitsOf i1 13 1 (by decide), shiftRight_and_eq_bitsOf i1 12 1 (by decide),
   shiftRight_and_eq_bitsOf i1 6 6 (by decide), shiftRight_and_eq_bitsOf i1 0 6 (by decide)⟩

/-- C5. Round trip through `show_qpu_inst` loses the shape. The ALU record
`aluPackbitsE0` (opcode 0, packbits `0xE0`, all fields within their widths)
encodes to `(0, 0x0E000000)`; `show_qpu_inst` prints that pair with
`show_qpu_branch`, not `show_qpu_add_mul`. The branch record `branchZero`
encodes to `(0, 0xE0000000)` (opcode nibble 14), and `show_qpu_inst` prints it
with `show_qpu_add_mul`. -/
theorem round_trip_show_qpu_inst_wrong_shape :
    (aluPackbitsE0.InRange ∧ aluPackbitsE0.op ≤ 13 ∧
     encodeAluOp aluPackbitsE0 = (0, 0x0E000000) ∧
     show_qpu_inst (instPair (encodeAluOp aluPackbitsE0).1 (encodeAluOp aluPackbitsE0).2) =
       [Decoded.branch (show_qpu_branch 0 0x0E000000)] ∧
     show_qpu_inst (instPair (encodeAluOp aluPackbitsE0).1 (encodeAluOp aluPackbitsE0).2) ≠
       [Decoded.add_mul aluPackbitsE0]) ∧
    (branchZero.InRange ∧ encodeBranch branchZero = (0, 0xE0000000) ∧
     show_qpu_inst (instPair (encodeBranch branchZero).1 (encodeBranch branchZero).2) =
       [Decoded.add_mul (show_qpu_add_mul 0 0xE0000000)] ∧
     show_qpu_inst (instPair (encodeBranch branchZero).1 (encodeBranch branchZero).2) ≠
       [Decoded.branch branchZero]) := by
  decide

/-! ### Signature matching -/

/-- Inverting one bit of a word changes the word. -/
theorem flipBit_ne (w b : Nat) : flipBit w b ≠ w := by
  intro h
  have hb := congrArg (fun x => Nat.testBit x b) h
  simp [flipBit, Nat.testBit_xor, Nat.one_shiftLeft, Nat.testBit_two_pow_self] at hb

/-- Inverting one of the low 32 bits of a 32-bit word gives a 32-bit word. -/
theorem flipBit_lt (w b : Nat) (hw : w < 2 ^ 32) (hb : b < 32) : flipBit w b < 2 ^ 32 := by
  unfold flipBit
  apply Nat.xor_lt_two_pow hw
  rw [Nat.one_shiftLeft]
  exact Nat.pow_lt_pow_right (by decide) hb

/-- C8. `is_qpu_nop` at offset `k` is true exactly when `buf[k] = 0x009e7000`
and `buf[k+1] = 0x100009e7`; when it is true, inverting any one bit `b < 32` of
`buf[k]`, or of `buf[k+1]`, makes it false. -/
theorem is_qpu_nop_iff_and_bit_flip (buf : Nat → Nat) (k b : Nat) :
    (is_qpu_nop (ptrAt buf k) = true ↔ buf k = 0x009e7000 ∧ buf (k + 1) = 0x100009e7) ∧
    (is_qpu_nop (ptrAt buf k) = true → b < 32 →
      is_qpu_nop (ptrAt (setWord buf k (flipBit (buf k) b)) k) = false ∧
      is_qpu_nop (ptrAt (setWord buf (k + 1) (flipBit (buf (k + 1)) b)) k) = false) := by
  have hiff : ∀ c : Nat → Nat,
      is_qpu_nop (ptrAt c k) = true ↔ c k = 0x009e7000 ∧ c (k + 1) = 0x100009e7 := by
    intro c
    simp [is_qpu_nop, ptrAt]
  refine ⟨hiff buf, ?_⟩
  intro hnop _
  obtain ⟨h0, h1⟩ := (hiff buf).1 hnop
  constructor
  · rw [Bool.eq_false_iff]
    intro hflip
    have h := ((hiff _).1 hflip).1
    simp only [setWord, if_true] at h
    exact flipBit_ne (buf k) b (h.trans h0.symm)
  · rw [Bool.eq_false_iff]
    intro hflip
    have h := ((hiff _).1 hflip).2
    simp only [setWord, if_true] at h
    exact flipBit_ne (buf (k + 1)) b (h.trans h1.symm)

/-- Witness for C8: the no-op pair at offset 0, bit 30 inverted. -/
theorem is_qpu_nop_iff_and_bit_flip_witness :
    is_qpu_nop (ptrAt (instPair 0x009e7000 0x100009e7) 0) = true ∧ 30 < 32 ∧
    is_qpu_nop (ptrAt (setWord (instPair 0x009e7000 0x100009e7) 0
      (flipBit 0x009e7000 30)) 0) = false ∧
    is_qpu_nop (ptrAt (setWord (instPair 0x009e7000 0x100009e7) 1
      (flipBit 0x100009e7 30)) 0) = false :=
  ⟨by decide, by decide,
   (is_qpu_nop_iff_and_bit_flip (instPair 0x009e7000 0x100009e7) 0 30).2 (by decide) (by decide)⟩

/-- What `is_qpu_end` tests: six words. -/
theorem is_qpu_end_ptrAt (buf : Nat → Nat) (k : Nat) :
    is_qpu_end (ptrAt buf k) = true ↔
      (buf k = 0x009e7000 ∧ buf (k + 1) = 0x300009e7) ∧
      (buf (k + 2) = 0x009e7000 ∧ buf (k + 3) = 0x100009e7) ∧
      (buf (k + 4) = 0x009e7000 ∧ (buf (k + 5) = 0x100009e7 ∨ buf (k + 5) = 0x500009e7)) := by
  simp [is_qpu_end, ptrAt, and_assoc]

/-- Reading back the words `putWords` wrote. -/
theorem putWords_get (buf : Nat → Nat) (k : Nat) (ws : List Nat) (j : Nat) (hj : j < ws.length) :
    putWords buf k ws (k + j) = ws.getD j 0 := by
  simp [putWords, hj]

/-- C9. `is_qpu_end` at an offset is true exactly when the words from the
offset on are the pairs `(0x009e7000, 0x300009e7)`, `(0x009e7000, 0x100009e7)`,
`(0x009e7000, W)` with `W` one of `0x100009e7`, `0x500009e7`; and it is true
on that sequence for both values of `W`, wherever it is written. -/
theorem is_qpu_end_iff (buf : Nat → Nat) (k : Nat) :
    (is_qpu_end (ptrAt buf k) = true ↔
      (buf k = 0x009e7000 ∧ buf (k + 1) = 0x300009e7) ∧
      (buf (k + 2) = 0x009e7000 ∧ buf (k + 3) = 0x100009e7) ∧
      (buf (k + 4) = 0x009e7000 ∧ (buf (k + 5) = 0x100009e7 ∨ buf (k + 5) = 0x500009e7))) ∧
    is_qpu_end (ptrAt (putWords buf k (endSig 0x100009e7)) k) = true ∧
    is_qpu_end (ptrAt (putWords buf k (endSig 0x500009e7)) k) = true := by
  refine ⟨is_qpu_end_ptrAt buf k, ?_, ?_⟩
  · rw [is_qpu_end_ptrAt]
    have h0 := putWords_get buf k (endSig 0x100009e7) 0 (by decide)
    have h1 := putWords_get buf k (endSig 0x100009e7) 1 (by decide)
    have h2 := putWords_get buf k (endSig 0x100009e7) 2 (by decide)
    have h3 := putWords_get buf k (endSig 0x100009e7) 3 (by decide)
    have h4 := putWords_get buf k (endSig 0x100009e7) 4 (by decide)
    have h5 := putWords_get buf k (endSig 0x100009e7) 5 (by decide)
    rw [Nat.add_zero] at h0
    rw [h0, h1, h2, h3, h4, h5]
    decide
  · rw [is_qpu_end_ptrAt]
    have h0 := putWords_get buf k (endSig 0x500009e7) 0 (by decide)
    have h1 := putWords_get buf k (endSig 0x500009e7) 1 (by decide)
    have h2 := putWords_get buf k (endSig 0x500009e7) 2 (by decide)
    have h3 := putWords_get buf k (endSig 0x500009e7) 3 (by decide)
    have h4 := putWords_get buf k (endSig 0x500009e7) 4 (by decide)
    have h5 := putWords_get buf k (endSig 0x500009e7) 5 (by decide)
    rw [Nat.add_zero] at h0
    rw [h0, h1, h2, h3, h4, h5]
    decide

/-- C10, counterexample. On the window `endWindow 0x100009e7` (the signature,
then zeros) `is_qpu_end` is true; replacing word 6 (a zero) by 1 leaves it
true, and so does replacing word 5 (`0x100009e7`) by `0x500009e7`. -/
theorem is_qpu_end_altered_word_still_matches :
    is_qpu_end (ptrAt (endWindow 0x100009e7) 0) = true ∧
    (6 < 12 ∧ 1 < 2 ^ 32 ∧ 1 ≠ endWindow 0x100009e7 (0 + 6) ∧
      is_qpu_end (ptrAt (setWord (endWindow 0x100009e7) (0 + 6) 1) 0) = true) ∧
    (5 < 12 ∧ 0x500009e7 < 2 ^ 32 ∧ 0x500009e7 ≠ endWindow 0x100009e7 (0 + 5) ∧
      is_qpu_end (ptrAt (setWord (endWindow 0x100009e7) (0 + 5) 0x500009e7) 0) = true) := by
  decide

/-- C10, amended. On a window where `is_qpu_end` is true, replacing word `j`
(`j < 12`) by a different value `v` makes `is_qpu_end` false exactly when
`j` is one of the first five words, or `j = 5` and `v` is neither
`0x100009e7` nor `0x500009e7`; words 6 to 11 are not tested. -/
theorem is_qpu_end_one_word_altered (buf : Nat → Nat) (k j v : Nat)
    (hend : is_qpu_end (ptrAt buf k) = true) (hj : j < 12) (hv : v ≠ buf (k + j)) :
    is_qpu_end (ptrAt (setWord buf (k + j) v) k) = false ↔
      (j < 5 ∨ (j = 5 ∧ v ≠ 0x100009e7 ∧ v ≠ 0x500009e7)) := by
  obtain ⟨⟨h0, h1⟩, ⟨h2, h3⟩, h4, h5⟩ := (is_qpu_end_ptrAt buf k).1 hend
  rw [← Bool.not_eq_true, is_qpu_end_ptrAt]
  have hs : ∀ i : Nat, setWord buf (k + j) v (k + i) = if i = j then v else buf (k + i) := by
    intro i
    simp [setWord]
  have hs0 := hs 0
  rw [Nat.add_zero] at hs0
  rw [hs0, hs 1, hs 2, hs 3, hs 4, hs 5]
  interval_cases j
  · simp only [Nat.add_zero] at hv
    simp [h0, h1, h2, h3, h4, h5, hv] at *
    omega
  all_goals simp [h0, h1, h2, h3, h4, h5] at *
  all_goals omega

/-- Witness for C10, amended: in `endWindow 0x500009e7`, word 3 replaced by 0. -/
theorem is_qpu_end_one_word_altered_witness :
    is_qpu_end (ptrAt (endWindow 0x500009e7) 0) = true ∧ 3 < 12 ∧
    0 ≠ endWindow 0x500009e7 (0 + 3) ∧
    (is_qpu_end (ptrAt (setWord (endWindow 0x500009e7) (0 + 3) 0) 0) = false ↔
      (3 < 5 ∨ (3 = 5 ∧ (0 : Nat) ≠ 0x100009e7 ∧ (0 : Nat) ≠ 0x500009e7))) :=
  ⟨by decide, by decide, by decide,
   is_qpu_end_one_word_altered (endWindow 0x500009e7) 0 3 0 (by decide) (by decide) (by decide)⟩

/-! ### The scan loop -/

/-- With enough passes allowed the scan loop ends, having run its body once
for each counter value from `i` up to `n - 1`, in order. -/
theorem qpuscan_loop_eq (vc : Nat → Nat) (n : Nat) :
    ∀ fuel i, n - i ≤ fuel →
      qpuscan_loop vc n fuel i =
        some ((List.range' i (n - i)).flatMap (fun k => (qpuscan_body vc k).1),
              (List.range' i (n - i)).flatMap (fun k => (qpuscan_body vc k).2)) := by
  intro fuel
  induction fuel with
  | zero =>
    intro i h
    have hi : ¬ i < n := by omega
    have h0 : n - i = 0 := by omega
    simp [qpuscan_loop, hi, h0]
  | succ fuel ih =>
    intro i h
    by_cases hi : i < n
    · have hstep : n - i = (n - (i + 1)) + 1 := by omega
      rw [qpuscan_loop, if_pos hi, ih (i + 1) (by omega), hstep, List.range'_succ]
      simp
    · have h0 : n - i = 0 := by omega
      simp [qpuscan_loop, hi, h0]

/-- The lines of the bodies run over the indices `l` are the lines of the
indices in `l` at which `is_qpu_end` holds. -/
theorem flatMap_qpuscan_body_fst (vc : Nat → Nat) (l : List Nat) :
    l.flatMap (fun k => (qpuscan_body vc k).1) =
      (l.filter (fun i => is_qpu_end (ptrAt vc i))).map (scanLine vc) := by
  induction l with
  | nil => rfl
  | cons a l ih =>
    rw [List.flatMap_cons, ih]
    by_cases h : is_qpu_end (ptrAt vc a) = true
    · simp [qpuscan_body, h]
    · simp [qpuscan_body, h]

/-- The scan loop ends, printing one line per index of `scanMatches`, in order. -/
theorem qpuscan_scan_eq (vc : Nat → Nat) (n : Nat) :
    qpuscan_scan vc n =
      some ((scanMatches vc n).map (scanLine vc),
            (List.range n).flatMap (fun k => (qpuscan_body vc k).2)) := by
  unfold qpuscan_scan scanMatches
  rw [qpuscan_loop_eq vc n n 0 (by omega), flatMap_qpuscan_body_fst, Nat.sub_zero,
    List.range_eq_range']

/-- Membership in `scanMatches`. -/
theorem mem_scanMatches (vc : Nat → Nat) (n i : Nat) :
    i ∈ scanMatches vc n ↔ i < n ∧ is_qpu_end (ptrAt vc i) = true := by
  simp [scanMatches]

/-- The indices of `scanMatches` are strictly ascending. -/
theorem scanMatches_pairwise (vc : Nat → Nat) (n : Nat) :
    (scanMatches vc n).Pairwise (fun a b => a < b) :=
  (List.pairwise_lt_range n).filter _

/-- C11. The scan loop of `qpuscan` over `n` words ends and prints exactly one
line for each word index `i < n` at which `is_qpu_end` holds: the lines are
those of `scanMatches vc n`, a strictly ascending list (so each index occurs
once, in ascending order) that holds `i` exactly when `i < n` and `is_qpu_end`
holds at `i`, whatever holds at neighbouring indices; the line for `i` carries
the byte offset `4 * i`. -/
theorem qpuscan_reports_each_match_once (vc : Nat → Nat) (n : Nat) :
    (∃ reads, qpuscan_scan vc n = some ((scanMatches vc n).map (scanLine vc), reads)) ∧
    (∀ i, i ∈ scanMatches vc n ↔ i < n ∧ is_qpu_end (ptrAt vc i) = true) ∧
    (scanMatches vc n).Pairwise (fun a b => a < b) ∧
    ((scanMatches vc n).map (fun i => (scanLine vc i).offset) =
      (scanMatches vc n).map (fun i => 4 * i)) :=
  ⟨⟨_, qpuscan_scan_eq vc n⟩, mem_scanMatches vc n, scanMatches_pairwise vc n,
   List.map_congr_left (fun i _ => Nat.mul_comm i 4)⟩

/-- A strictly ascending list that holds exactly the matching indices below
`n` is the list of matches. -/
theorem scanMatches_eq_of_mem (vc : Nat → Nat) (n : Nat) (l : List Nat)
    (hs : l.Pairwise (fun a b => a < b))
    (h : ∀ i, i ∈ l ↔ i < n ∧ is_qpu_end (ptrAt vc i) = true) :
    scanMatches vc n = l := by
  have hs' := scanMatches_pairwise vc n
  have hperm : (scanMatches vc n).Perm l := by
    rw [List.perm_ext_iff_of_nodup (hs'.imp Nat.ne_of_lt) (hs.imp Nat.ne_of_lt)]
    intro a
    rw [mem_scanMatches, h]
  exact List.eq_of_perm_of_sorted hperm hs' hs

/-- `is_qpu_end` at `i` depends on the six words from `i` only. -/
theorem is_qpu_end_congr (b1 b2 : Nat → Nat) (i : Nat)
    (h : ∀ j, j < 6 → b1 (i + j) = b2 (i + j)) :
    is_qpu_end (ptrAt b1 i) = is_qpu_end (ptrAt b2 i) := by
  simp only [is_qpu_end, ptrAt]
  rw [h 0 (by decide), h 1 (by decide), h 2 (by decide), h 3 (by decide), h 4 (by decide),
    h 5 (by decide)]

/-- Outside the written range `putWords` leaves the buffer as it was. -/
theorem putWords_outside (buf : Nat → Nat) (k : Nat) (ws : List Nat) (j : Nat)
    (hj : j < k ∨ k + ws.length ≤ j) : putWords buf k ws j = buf j := by
  unfold putWords
  rw [if_neg]
  omega

/-- `is_qpu_end` holds where the signature was written. -/
theorem is_qpu_end_putWords (buf : Nat → Nat) (k W : Nat)
    (hW : W = 0x100009e7 ∨ W = 0x500009e7) :
    is_qpu_end (ptrAt (putWords buf k (endSig W)) k) = true := by
  rw [is_qpu_end_ptrAt]
  have h0 := putWords_get buf k (endSig W) 0 (by simp [endSig])
  have h1 := putWords_get buf k (endSig W) 1 (by simp [endSig])
  have h2 := putWords_get buf k (endSig W) 2 (by simp [endSig])
  have h3 := putWords_get buf k (endSig W) 3 (by simp [endSig])
  have h4 := putWords_get buf k (endSig W) 4 (by simp [endSig])
  have h5 := putWords_get buf k (endSig W) 5 (by simp [endSig])
  rw [Nat.add_zero] at h0
  rw [h0, h1, h2, h3, h4, h5]
  simpa [endSig] using hW

/-- The word `0x300009e7` occurs in a written signature at its second word only. -/
theorem putWords_endSig_eq_second (base : Nat → Nat) (p W j : Nat)
    (hW : W = 0x100009e7 ∨ W = 0x500009e7)
    (h : putWords base p (endSig W) j = 0x300009e7) :
    j = p + 1 ∨ base j = 0x300009e7 := by
  by_cases hin : p ≤ j ∧ j < p + (endSig W).length
  · left
    obtain ⟨d, rfl⟩ : ∃ d, j = p + d := ⟨j - p, by omega⟩
    have hd : d < 6 := by
      have hlen : (endSig W).length = 6 := rfl
      omega
    rw [putWords_get base p (endSig W) d hd] at h
    rcases hW with rfl | rfl <;> interval_cases d <;> simp [endSig] at h ⊢
  · right
    rw [putWords_outside base p (endSig W) j (by omega)] at h
    exact h

/-- In a zero-filled buffer holding one signature at `p`, `is_qpu_end` holds at
`p` only. -/
theorem is_qpu_end_embedded_once (p W i : Nat) (hW : W = 0x100009e7 ∨ W = 0x500009e7) :
    is_qpu_end (ptrAt (putWords zeroBuf p (endSig W)) i) = true ↔ i = p := by
  constructor
  · intro h
    have h1 := ((is_qpu_end_ptrAt _ i).1 h).1.2
    rcases putWords_endSig_eq_second zeroBuf p W (i + 1) hW h1 with h2 | h2
    · omega
    · simp [zeroBuf] at h2
  · rintro rfl
    exact is_qpu_end_putWords zeroBuf i W hW

/-- In a zero-filled buffer holding signatures at `p` and `p + 50`,
`is_qpu_end` holds at `p` and `p + 50` only. -/
theorem is_qpu_end_embedded_twice (p W1 W2 i : Nat)
    (hW1 : W1 = 0x100009e7 ∨ W1 = 0x500009e7) (hW2 : W2 = 0x100009e7 ∨ W2 = 0x500009e7) :
    is_qpu_end (ptrAt (putWords (putWords zeroBuf p (endSig W1)) (p + 50) (endSig W2)) i) = true
      ↔ i = p ∨ i = p + 50 := by
  constructor
  · intro h
    have h1 := ((is_qpu_end_ptrAt _ i).1 h).1.2
    rcases putWords_endSig_eq_second _ (p + 50) W2 (i + 1) hW2 h1 with h2 | h2
    · right; omega
    · rcases putWords_endSig_eq_second zeroBuf p W1 (i + 1) hW1 h2 with h3 | h3
      · left; omega
      · simp [zeroBuf] at h3
  · rintro (rfl | rfl)
    · rw [is_qpu_end_congr _ (putWords zeroBuf i (endSig W1)) i]
      · exact is_qpu_end_putWords zeroBuf i W1 hW1
      · intro j hj
        exact putWords_outside _ (i + 50) (endSig W2) (i + j) (by omega)
    · exact is_qpu_end_putWords _ (p + 50) W2 hW2

/-- C12. In a zero-filled buffer with the end signature (either terminal word)
written once at word offset `p` below the scan length `n`, the scan matches at
`p` only and prints the one line for `p`; with the signature written at `p` and
at `p + 50`, both below `n`, it matches at `p` and `p + 50` only and prints
their two lines, in that order. -/
theorem qpuscan_embedded_signature (p n W1 W2 : Nat)
    (hW1 : W1 = 0x100009e7 ∨ W1 = 0x500009e7) (hW2 : W2 = 0x100009e7 ∨ W2 = 0x500009e7) :
    (p < n →
      scanMatches (putWords zeroBuf p (endSig W1)) n = [p] ∧
      (qpuscan_scan (putWords zeroBuf p (endSig W1)) n).map Prod.fst =
        some [scanLine (putWords zeroBuf p (endSig W1)) p]) ∧
    (p + 50 < n →
      scanMatches (putWords (putWords zeroBuf p (endSig W1)) (p + 50) (endSig W2)) n
        = [p, p + 50] ∧
      (qpuscan_scan (putWords (putWords zeroBuf p (endSig W1)) (p + 50) (endSig W2)) n).map
          Prod.fst =
        some [scanLine (putWords (putWords zeroBuf p (endSig W1)) (p + 50) (endSig W2)) p,
              scanLine (putWords (putWords zeroBuf p (endSig W1)) (p + 50) (endSig W2))
                (p + 50)]) := by
  constructor
  · intro hp
    have hm : scanMatches (putWords zeroBuf p (endSig W1)) n = [p] := by
      apply scanMatches_eq_of_mem
      · simp
      · intro i
        rw [is_qpu_end_embedded_once p W1 i hW1]
        simp only [List.mem_singleton]
        constructor
        · rintro rfl
          exact ⟨hp, rfl⟩
        · exact fun h => h.2
    refine ⟨hm, ?_⟩
    rw [qpuscan_scan_eq, hm]
    rfl
  · intro hp
    have hm : scanMatches (putWords (putWords zeroBuf p (endSig W1)) (p + 50) (endSig W2)) n
        = [p, p + 50] := by
      apply scanMatches_eq_of_mem
      · simp
      · intro i
        rw [is_qpu_end_embedded_twice p W1 W2 i hW1 hW2]
        simp only [List.mem_cons, List.mem_singleton, List.not_mem_nil, or_false]
        constructor
        · rintro (rfl | rfl)
          · exact ⟨by omega, Or.inl rfl⟩
          · exact ⟨hp, Or.inr rfl⟩
        · exact fun h => h.2
    refine ⟨hm, ?_⟩
    rw [qpuscan_scan_eq, hm]
    rfl

/-- Witness for C12: signatures at word offsets 100 and 150, scan length 200. -/
theorem qpuscan_embedded_signature_witness :
    ((0x100009e7 : Nat) = 0x100009e7 ∨ (0x100009e7 : Nat) = 0x500009e7) ∧
    ((0x500009e7 : Nat) = 0x100009e7 ∨ (0x500009e7 : Nat) = 0x500009e7) ∧
    100 < 200 ∧ 100 + 50 < 200 ∧
    scanMatches (putWords zeroBuf 100 (endSig 0x100009e7)) 200 = [100] ∧
    scanMatches (putWords (putWords zeroBuf 100 (endSig 0x100009e7)) (100 + 50)
      (endSig 0x500009e7)) 200 = [100, 100 + 50] :=
  ⟨by decide, by decide, by decide, by decide,
   ((qpuscan_embedded_signature 100 200 0x100009e7 0x500009e7 (by decide) (by decide)).1
      (by decide)).1,
   ((qpuscan_embedded_signature 100 200 0x100009e7 0x500009e7 (by decide) (by decide)).2
      (by decide)).1⟩

/-! ### Words read by the scan -/

/-- The lookahead of `is_qpu_end` reads `inst[0]` to `inst[5]` at most. -/
theorem is_qpu_end_reads_le (inst : Nat → Nat) : ∀ r ∈ is_qpu_end_reads inst, r ≤ 5 := by
  intro r hr
  unfold is_qpu_end_reads at hr
  repeat' split at hr
  all_goals simp at hr
  all_goals omega

/-- One pass of the scan body at `i` reads indices `i` to `i + 7` at most. -/
theorem qpuscan_body_reads_lt (vc : Nat → Nat) (i : Nat) :
    ∀ idx ∈ (qpuscan_body vc i).2, idx < i + 8 := by
  intro idx h
  have hend : ∀ x ∈ (is_qpu_end_reads (ptrAt vc i)).map (fun r => i + r), x < i + 8 := by
    intro x hx
    obtain ⟨r, hr, rfl⟩ := List.mem_map.1 hx
    have := is_qpu_end_reads_le _ r hr
    omega
  have hline : ∀ x ∈ scanLineReads i, x < i + 8 := by
    intro x hx
    simp [scanLineReads, List.range_succ] at hx
    omega
  unfold qpuscan_body at h
  split at h
  · rcases List.mem_append.1 h with h | h
    · exact hend idx h
    · exact hline idx h
  · exact hend idx h

/-- The scan over `n` words ends and reads indices below `n + 7` only. -/
theorem qpuscan_scan_reads_lt (vc : Nat → Nat) (n : Nat) :
    ∃ ls rs, qpuscan_scan vc n = some (ls, rs) ∧ ∀ idx ∈ rs, idx < n + 7 := by
  refine ⟨_, _, qpuscan_scan_eq vc n, ?_⟩
  intro idx h
  obtain ⟨i, hi, hidx⟩ := List.mem_flatMap.1 h
  have h1 := qpuscan_body_reads_lt vc i idx hidx
  have h2 := List.mem_range.1 hi
  omega

/-- C13, counterexample. With scan length `n = 1` (`size = VC_MEM_IMAGE + 4`)
and the signature at index 0, the scan reads the words at indices 1 to 7 and
prints a line for index 0; with only the first signature word at index 0 it
prints nothing and still reads index 1. -/
theorem qpuscan_reads_past_scan_length :
    scanLength (VC_MEM_IMAGE + 4) = 1 ∧
    qpuscan_scan (endWindow 0x100009e7) 1 =
      some ([scanLine (endWindow 0x100009e7) 0],
            [0, 1, 2, 3, 4, 5, 0, 1, 2, 3, 4, 5, 6, 7]) ∧
    qpuscan_scan (setWord zeroBuf 0 0x009e7000) 1 = some ([], [0, 1]) := by
  decide

/-- C13, amended. For every buffer and scan length `n` the scan ends and reads
only words at indices below `n + 7` (candidate `i < n`, lookahead to `i + 5`,
printed words to `i + 7`). -/
theorem qpuscan_reads_below_length_plus_seven (vc : Nat → Nat) (n : Nat) :
    ∃ ls rs, qpuscan_scan vc n = some (ls, rs) ∧ ∀ idx ∈ rs, idx < n + 7 :=
  qpuscan_scan_reads_lt vc n

/-- Witness for C13, amended: the signature at index 0, scan length 1. -/
theorem qpuscan_reads_below_length_plus_seven_witness :
    ∃ ls rs, qpuscan_scan (endWindow 0x100009e7) 1 = some (ls, rs) ∧ ∀ idx ∈ rs, idx < 1 + 7 :=
  qpuscan_reads_below_length_plus_seven (endWindow 0x100009e7) 1

/-- C20. For a mapped size with `VC_MEM_IMAGE <= size < 2^32` the loop bound is
`(size - VC_MEM_IMAGE) / 4`, the scan ends, every word index it reads is below
`size / 4`, and the counter, which runs from 0 to the bound, stays below
`2^31`. -/
theorem qpuscan_reads_inside_mapping (vc : Nat → Nat) (size : Nat)
    (hlo : VC_MEM_IMAGE ≤ size) (hhi : size < 2 ^ 32) :
    scanLength size = (size - VC_MEM_IMAGE) / 4 ∧
    scanLength size < 2 ^ 31 ∧
    ∃ ls rs, qpuscan_scan vc (scanLength size) = some (ls, rs) ∧
      ∀ idx ∈ rs, idx < size / 4 := by
  have hn : scanLength size = (size - VC_MEM_IMAGE) / 4 := by
    simp only [scanLength, VC_MEM_IMAGE] at *
    omega
  refine ⟨hn, ?_, ?_⟩
  · rw [hn]
    simp only [VC_MEM_IMAGE] at *
    omega
  · obtain ⟨ls, rs, hscan, hrs⟩ := qpuscan_scan_reads_lt vc (scanLength size)
    refine ⟨ls, rs, hscan, ?_⟩
    intro idx hidx
    have := hrs idx hidx
    rw [hn] at this
    simp only [VC_MEM_IMAGE] at *
    omega

/-- Witness for C20: a 512 MB mapping. -/
theorem qpuscan_reads_inside_mapping_witness :
    VC_MEM_IMAGE ≤ 0x20000000 ∧ 0x20000000 < 2 ^ 32 ∧
    scanLength 0x20000000 = (0x20000000 - VC_MEM_IMAGE) / 4 ∧
    scanLength 0x20000000 < 2 ^ 31 ∧
    ∃ ls rs, qpuscan_scan zeroBuf (scanLength 0x20000000) = some (ls, rs) ∧
      ∀ idx ∈ rs, idx < 0x20000000 / 4 :=
  ⟨by decide, by decide,
   qpuscan_reads_inside_mapping zeroBuf 0x20000000 (by decide) (by decide)⟩

/-! ### The printed line -/

/-- The line printed for index `i`, word by word. -/
theorem scanLine_eq (vc : Nat → Nat) (i : Nat) :
    scanLine vc i =
      { offset := 4 * i
        words := [vc i, vc (i + 1), vc (i + 2), vc (i + 3), vc (i + 4), vc (i + 5),
                  vc (i + 6), vc (i + 7)] } := by
  simp [scanLine, List.range_succ, Nat.mul_comm]

/-- C16, counterexample. The line printed for the match at index 0 of
`endWindow 0x100009e7` carries eight words, not the twelve words
`buf[0] .. buf[11]`. -/
theorem qpuscan_line_has_eight_words :
    (qpuscan_scan (endWindow 0x100009e7) 1).map Prod.fst =
      some [{ offset := 0
              words := [0x009e7000, 0x300009e7, 0x009e7000, 0x100009e7, 0x009e7000,
                        0x100009e7, 0, 0] }] ∧
    (scanLine (endWindow 0x100009e7) 0).words.length = 8 ∧
    (scanLine (endWindow 0x100009e7) 0).words ≠
      (List.range 12).map (fun j => endWindow 0x100009e7 (0 + j)) := by
  decide

/-- C16, amended. The scan prints a line exactly for the matches: a line is
printed if and only if it carries, for some word index `i < n` at which
`is_qpu_end` holds, the byte offset `4 * i` and the eight words
`buf[i] .. buf[i+7]`. -/
theorem qpuscan_line_carries_offset_and_eight_words (vc : Nat → Nat) (n : Nat) :
    ∃ ls rs, qpuscan_scan vc n = some (ls, rs) ∧
      ∀ line, line ∈ ls ↔
        ∃ i, (i < n ∧ is_qpu_end (ptrAt vc i) = true) ∧
          line = { offset := 4 * i
                   words := [vc i, vc (i + 1), vc (i + 2), vc (i + 3), vc (i + 4),
                             vc (i + 5), vc (i + 6), vc (i + 7)] } := by
  refine ⟨_, _, qpuscan_scan_eq vc n, ?_⟩
  intro line
  rw [List.mem_map]
  constructor
  · rintro ⟨i, hi, rfl⟩
    exact ⟨i, (mem_scanMatches vc n i).1 hi, scanLine_eq vc i⟩
  · rintro ⟨i, hi, rfl⟩
    exact ⟨i, (mem_scanMatches vc n i).2 hi, scanLine_eq vc i⟩

/-- Witness for C16, amended: the signature at index 0, scan length 1. -/
theorem qpuscan_line_carries_offset_and_eight_words_witness :
    ∃ ls rs, qpuscan_scan (endWindow 0x500009e7) 1 = some (ls, rs) ∧
      ∀ line, line ∈ ls ↔
        ∃ i, (i < 1 ∧ is_qpu_end (ptrAt (endWindow 0x500009e7) i) = true) ∧
          line = { offset := 4 * i
                   words := [endWindow 0x500009e7 i, endWindow 0x500009e7 (i + 1),
                             endWindow 0x500009e7 (i + 2), endWindow 0x500009e7 (i + 3),
                             endWindow 0x500009e7 (i + 4), endWindow 0x500009e7 (i + 5),
                             endWindow 0x500009e7 (i + 6), endWindow 0x500009e7 (i + 7)] } :=
  qpuscan_line_carries_offset_and_eight_words (endWindow 0x500009e7) 1

/-! ### Matches do not overlap -/

/-- Two matches, the second at a higher index, are at least six words apart. -/
theorem is_qpu_end_apart_of_lt (buf : Nat → Nat) (p q : Nat)
    (hp : is_qpu_end (ptrAt buf p) = true) (hq : is_qpu_end (ptrAt buf q) = true)
    (hlt : p < q) : p + 6 ≤ q := by
  obtain ⟨⟨_, p1⟩, ⟨_, p3⟩, _, p5⟩ := (is_qpu_end_ptrAt buf p).1 hp
  obtain ⟨⟨q0, q1⟩, _, _, _⟩ := (is_qpu_end_ptrAt buf q).1 hq
  by_contra hcon
  obtain ⟨d, rfl⟩ : ∃ d, q = p + d := ⟨q - p, by omega⟩
  have hd : d < 6 := by omega
  have hd0 : 0 < d := by omega
  interval_cases d
  all_goals simp only [Nat.add_assoc, Nat.reduceAdd] at q0 q1
  all_goals omega

/-- C18. In one buffer, two distinct word offsets at which `is_qpu_end` holds
are at least six words apart; hence in the ascending list of matches of a scan
each match lies at least six words after every earlier one. -/
theorem is_qpu_end_matches_six_apart (buf : Nat → Nat) (p q : Nat)
    (hp : is_qpu_end (ptrAt buf p) = true) (hq : is_qpu_end (ptrAt buf q) = true)
    (hne : p ≠ q) :
    (p + 6 ≤ q ∨ q + 6 ≤ p) ∧
    ∀ n, (scanMatches buf n).Pairwise (fun a b => a + 6 ≤ b) := by
  constructor
  · rcases Nat.lt_or_gt_of_ne hne with h | h
    · exact Or.inl (is_qpu_end_apart_of_lt buf p q hp hq h)
    · exact Or.inr (is_qpu_end_apart_of_lt buf q p hq hp h)
  · intro n
    refine (scanMatches_pairwise buf n).imp_of_mem ?_
    intro a b ha hb hab
    exact is_qpu_end_apart_of_lt buf a b ((mem_scanMatches buf n a).1 ha).2
      ((mem_scanMatches buf n b).1 hb).2 hab

/-- Witness for C18: signatures written back to back at indices 0 and 6. -/
theorem is_qpu_end_matches_six_apart_witness :
    is_qpu_end (ptrAt (putWords (endWindow 0x100009e7) 6 (endSig 0x500009e7)) 0) = true ∧
    is_qpu_end (ptrAt (putWords (endWindow 0x100009e7) 6 (endSig 0x500009e7)) 6) = true ∧
    0 ≠ 6 ∧ (0 + 6 ≤ 6 ∨ 6 + 6 ≤ 0) :=
  ⟨by decide, by decide, by decide,
   (is_qpu_end_matches_six_apart (putWords (endWindow 0x100009e7) 6 (endSig 0x500009e7)) 0 6
      (by decide) (by decide) (by decide)).1⟩

/-! ### The `unknown` fields under the dispatch of `show_qpu_inst` -/

/-- C19. Whenever `show_qpu_inst` prints a pair with `show_qpu_branch`, the
branch field `unknown` is 14; whenever it prints a pair with `show_qpu_imm32`,
the immediate field `unknown` is at least `0xF0` and its upper four bits are
1111. -/
theorem show_qpu_inst_unknown_fixed (inst : Nat → Nat) :
    (∀ f, Decoded.branch f ∈ show_qpu_inst inst → f.unknown = 14) ∧
    (∀ f, Decoded.imm32 f ∈ show_qpu_inst inst →
      0xF0 ≤ f.unknown ∧ f.unknown < 0x100 ∧ f.unknown / 16 = 0b1111) := by
  have hlt : bitsOf (inst 1) 27 24 < 16 := bitsOf_lt (inst 1) 27 24
  rw [show_qpu_inst_eq]
  constructor
  · intro f hf
    rw [List.mem_singleton] at hf
    split at hf
    · cases hf
    · split at hf
      · next h14 =>
        injection hf with hf
        rw [hf, show_qpu_branch_eq]
        exact h14
      · cases hf
  · intro f hf
    rw [List.mem_singleton] at hf
    split at hf
    · cases hf
    · next h1 =>
      split at hf
      · cases hf
      · next h2 =>
        injection hf with hf
        rw [hf, show_qpu_imm32_eq]
        have h15 : bitsOf (inst 1) 27 24 = 15 := by omega
        simp only [bitsOf] at h15 ⊢
        norm_num at h15 ⊢
        omega

/-- Witness for C19: `i1 = 0x0E000000` is printed as a branch, `i1 = 0x0F000000`
as an immediate. -/
theorem show_qpu_inst_unknown_fixed_witness :
    Decoded.branch (show_qpu_branch 0 0x0E000000) ∈ show_qpu_inst (instPair 0 0x0E000000) ∧
    (show_qpu_branch 0 0x0E000000).unknown = 14 ∧
    Decoded.imm32 (show_qpu_imm32 0 0x0F000000) ∈ show_qpu_inst (instPair 0 0x0F000000) ∧
    0xF0 ≤ (show_qpu_imm32 0 0x0F000000).unknown :=
  ⟨by decide,
   (show_qpu_inst_unknown_fixed (instPair 0 0x0E000000)).1 _ (by decide),
   by decide,
   ((show_qpu_inst_unknown_fixed (instPair 0 0x0F000000)).2 _ (by decide)).1⟩

/-! ### Disassembling a fragment -/

/-- A non-negative `int` below `2^32` converts to the same `uint32_t`. -/
theorem toUInt32_natCast (L : Nat) (hL : L < 2 ^ 32) : toUInt32 (L : Int) = L := by
  unfold toUInt32
  omega

/-- With enough passes allowed the loop of `show_qpu_fragment` ends; while the
bound `U` (the length as a `uint32_t`) is at most `2^32 - 2` the counter does
not wrap and takes the values `i, i + 2, ...` below `U`. -/
theorem show_qpu_fragment_loop_eq (inst : Nat → Nat) (length : Int) (U : Nat)
    (hU : toUInt32 length = U) (hb : U + 2 ≤ 2 ^ 32) :
    ∀ fuel i, (U + 1 - i) / 2 ≤ fuel →
      show_qpu_fragment_loop inst length fuel i =
        some ((List.range' i ((U + 1 - i) / 2) 2).map (fragLine inst),
              (List.range' i ((U + 1 - i) / 2) 2).flatMap fragReads) := by
  intro fuel
  induction fuel with
  | zero =>
    intro i h
    have hi : ¬ i < U := by omega
    have h0 : (U + 1 - i) / 2 = 0 := by omega
    simp [show_qpu_fragment_loop, hU, hi, h0]
  | succ fuel ih =>
    intro i h
    by_cases hi : i < U
    · have hstep : (U + 1 - i) / 2 = (U + 1 - (i + 2)) / 2 + 1 := by omega
      have hwrap : (i + 2) % 2 ^ 32 = i + 2 := by omega
      rw [show_qpu_fragment_loop, hU, if_pos hi, hwrap, ih (i + 2) (by omega), hstep,
        List.range'_succ]
      simp
    · have h0 : (U + 1 - i) / 2 = 0 := by omega
      simp [show_qpu_fragment_loop, hU, hi, h0]

/-- The counter values `0, 2, 4, ...` are the doubles of `0, 1, 2, ...`. -/
theorem range'_zero_two (m : Nat) : List.range' 0 m 2 = (List.range m).map (fun k => 2 * k) := by
  apply List.ext_getElem
  · simp
  · intro j h1 h2
    simp

/-- `show_qpu_inst` reads the two words at its pointer only. -/
theorem show_qpu_inst_ptrAt (inst : Nat → Nat) (i : Nat) :
    show_qpu_inst (ptrAt inst i) = show_qpu_inst (instPair (inst i) (inst (i + 1))) := by
  simp [show_qpu_inst, ptrAt, instPair]

/-- At an even counter value below `2^32` the printed line is the record of
that pair. -/
theorem fragLine_two_mul (inst : Nat → Nat) (k : Nat) (hk : 2 * k + 1 < 2 ^ 32) :
    fragLine inst (2 * k) = specRecord inst k := by
  unfold fragLine specRecord
  rw [Nat.mod_eq_of_lt hk, show_qpu_inst_ptrAt]

/-- For a length `L` with `0 <= L < 2^31`, of either parity,
`show_qpu_fragment` ends after `(L + 1) / 2` passes, printing the records of
the pairs `0 .. (L + 1) / 2 - 1` and reading the words of each pair twice. -/
theorem show_qpu_fragment_natCast (inst : Nat → Nat) (L : Nat) (hL : L < 2 ^ 31) :
    show_qpu_fragment inst (L : Int) ((L + 1) / 2) =
      some ((List.range ((L + 1) / 2)).map (specRecord inst),
            (List.range ((L + 1) / 2)).flatMap
              (fun k => [2 * k, 2 * k + 1, 2 * k, 2 * k + 1])) := by
  unfold show_qpu_fragment
  rw [show_qpu_fragment_loop_eq inst (L : Int) L (toUInt32_natCast L (by omega)) (by omega)
      ((L + 1) / 2) 0 (by omega), Nat.sub_zero, range'_zero_two, List.map_map, List.flatMap_map]
  congr 2
  · apply List.map_congr_left
    intro k hk
    have := List.mem_range.1 hk
    exact fragLine_two_mul inst k (by omega)
  · apply List.flatMap_congr
    intro k hk
    have := List.mem_range.1 hk
    have hlt : 2 * k + 1 < 4294967296 := by omega
    simp [fragReads, Nat.mod_eq_of_lt hlt]

/-- The reads of the pairs `0 .. m - 1` are the indices below `2 * m`. -/
theorem mem_pair_reads (m idx : Nat)
    (h : idx ∈ (List.range m).flatMap (fun k => [2 * k, 2 * k + 1, 2 * k, 2 * k + 1])) :
    idx < 2 * m := by
  obtain ⟨k, hk, hidx⟩ := List.mem_flatMap.1 h
  have := List.mem_range.1 hk
  simp at hidx
  omega

/-- C14. For an even length `L` with `0 <= L <= B` (`B` the buffer size, `L`
an `int`), `show_qpu_fragment` ends and prints exactly `L / 2` records in
buffer order, record `k` carrying offset `2k`, the words `inst[2k]` and
`inst[2k+1]` and the decode `show_qpu_inst` gives for that pair; it reads only
words below `L` (so inside the buffer), and for `L = 0` it prints no record and
reads no word. -/
theorem show_qpu_fragment_even_length (inst : Nat → Nat) (L B : Nat)
    (heven : L % 2 = 0) (hint : L < 2 ^ 31) (hB : L ≤ B) :
    ∃ reads,
      show_qpu_fragment inst (L : Int) (L / 2) =
        some ((List.range (L / 2)).map (specRecord inst), reads) ∧
      ((List.range (L / 2)).map (specRecord inst)).length = L / 2 ∧
      (∀ idx ∈ reads, idx < L ∧ idx < B) ∧
      (L = 0 → (List.range (L / 2)).map (specRecord inst) = [] ∧ reads = []) := by
  have hhalf : (L + 1) / 2 = L / 2 := by omega
  have h := show_qpu_fragment_natCast inst L hint
  rw [hhalf] at h
  refine ⟨_, h, by simp, ?_, ?_⟩
  · intro idx hidx
    have := mem_pair_reads (L / 2) idx hidx
    omega
  · rintro rfl
    exact ⟨rfl, rfl⟩

/-- Witness for C14: four words of a four-word buffer. -/
theorem show_qpu_fragment_even_length_witness :
    4 % 2 = 0 ∧ 4 < 2 ^ 31 ∧ 4 ≤ 4 ∧
    ∃ reads,
      show_qpu_fragment countBuf ((4 : Nat) : Int) (4 / 2) =
        some ((List.range (4 / 2)).map (specRecord countBuf), reads) ∧
      ((List.range (4 / 2)).map (specRecord countBuf)).length = 4 / 2 ∧
      (∀ idx ∈ reads, idx < 4 ∧ idx < 4) ∧
      (4 = 0 → (List.range (4 / 2)).map (specRecord countBuf) = [] ∧ reads = []) :=
  ⟨by decide, by decide, by decide,
   show_qpu_fragment_even_length countBuf 4 4 (by decide) (by decide) (by decide)⟩

/-- C15, counterexample. For length 1 the specification asks for
`MalformedLength`; `show_qpu_fragment` prints the record of the pair
`(inst[0], inst[1])`, reading index 1. For length 4 on a buffer of two words
the specification asks for `OutOfBounds`; `show_qpu_fragment` prints two
records, reading indices 2 and 3. -/
theorem show_qpu_fragment_reports_no_error :
    (decode_fragment_spec countBuf 4 1 = Except.error FragmentError.MalformedLength ∧
     show_qpu_fragment countBuf 1 1 = some ([specRecord countBuf 0], [0, 1, 0, 1])) ∧
    (decode_fragment_spec countBuf 2 4 = Except.error FragmentError.OutOfBounds ∧
     show_qpu_fragment countBuf 4 2 =
       some ([specRecord countBuf 0, specRecord countBuf 1], [0, 1, 0, 1, 2, 3, 2, 3])) :=
  ⟨⟨rfl, by decide⟩, ⟨rfl, by decide⟩⟩

/-- C15, amended. `show_qpu_fragment` has no error result: for every length
`L` with `0 <= L < 2^31`, even or odd and whatever the buffer holds, it ends
after `(L + 1) / 2` passes and prints the records of the pairs
`0 .. (L + 1) / 2 - 1`; for odd `L` the last pair includes the word at index
`L`, which is read. -/
theorem show_qpu_fragment_decodes_every_length (inst : Nat → Nat) (L : Nat)
    (hint : L < 2 ^ 31) :
    ∃ reads,
      show_qpu_fragment inst (L : Int) ((L + 1) / 2) =
        some ((List.range ((L + 1) / 2)).map (specRecord inst), reads) ∧
      (L % 2 = 1 → L ∈ reads ∧
        ((List.range ((L + 1) / 2)).map (specRecord inst)).getLast? =
          some (specRecord inst ((L - 1) / 2)) ∧
        2 * ((L - 1) / 2) + 1 = L) := by
  refine ⟨_, show_qpu_fragment_natCast inst L hint, ?_⟩
  intro hodd
  refine ⟨?_, ?_, by omega⟩
  · rw [List.mem_flatMap]
    refine ⟨(L - 1) / 2, List.mem_range.2 (by omega), ?_⟩
    have : 2 * ((L - 1) / 2) + 1 = L := by omega
    simp [this]
  · have hm : (L + 1) / 2 = (L - 1) / 2 + 1 := by omega
    rw [hm, List.range_succ, List.map_append]
    simp

/-- Witness for C15, amended: length 1. -/
theorem show_qpu_fragment_decodes_every_length_witness :
    1 < 2 ^ 31 ∧ 1 % 2 = 1 ∧
    ∃ reads,
      show_qpu_fragment countBuf ((1 : Nat) : Int) ((1 + 1) / 2) =
        some ((List.range ((1 + 1) / 2)).map (specRecord countBuf), reads) ∧
      (1 % 2 = 1 → 1 ∈ reads ∧
        ((List.range ((1 + 1) / 2)).map (specRecord countBuf)).getLast? =
          some (specRecord countBuf ((1 - 1) / 2)) ∧
        2 * ((1 - 1) / 2) + 1 = 1) :=
  ⟨by decide, by decide, show_qpu_fragment_decodes_every_length countBuf 1 (by decide)⟩

/-- The length passed for a file of at least eight words is the number of
words after the header. -/
theorem disLength_eq (size : Nat) (h32 : size < 2 ^ 32) (h8 : 8 ≤ size / 4) :
    disLength size = ((size / 4 - 8 : Nat) : Int) := by
  have hu : (size / 4 + 2 ^ 32 - 8) % 2 ^ 32 = size / 4 - 8 := by omega
  have hv : (size / 4 - 8) % 2 ^ 32 = size / 4 - 8 := by omega
  unfold disLength toInt32
  rw [hu, hv, if_pos (by omega)]

/-- C17, counterexample. For a file of 36 bytes (nine words) `qpu_dis_file`
passes length 1, which is odd, and the one pair decoded is made of file words 8
and 9, the second one past the last word of the file; for a file of 4 bytes the
length passed is -7. -/
theorem qpu_dis_file_length_not_checked :
    disLength 36 = 1 ∧
    qpu_dis_file (some countBuf) 36 1 =
      some ([{ offset := 0, word0 := 8, word1 := 9,
               decoded := show_qpu_inst (instPair 8 9) }], [0, 1, 0, 1]) ∧
    36 / 4 ≤ 8 + 1 ∧
    disLength 4 = -7 := by
  decide

/-- C17, amended. For a loaded file of `size < 2^32` bytes with an even number
`size / 4` of words, at least 8, `qpu_dis_file` decodes from file word 8 with
length `size / 4 - 8`, which is even, non-negative and the number of words
after the header; the decode ends, prints the records of the pairs after the
header, and reads no file word at index `size / 4` or above. -/
theorem qpu_dis_file_even_word_count (file : Nat → Nat) (size : Nat)
    (h32 : size < 2 ^ 32) (h8 : 8 ≤ size / 4) (heven : size / 4 % 2 = 0) :
    disLength size = ((size / 4 - 8 : Nat) : Int) ∧
    (size / 4 - 8) % 2 = 0 ∧
    ∃ reads,
      qpu_dis_file (some file) size ((size / 4 - 8) / 2) =
        some ((List.range ((size / 4 - 8) / 2)).map (specRecord (ptrAt file 8)), reads) ∧
      ∀ idx ∈ reads, 8 + idx < size / 4 := by
  have hlen := disLength_eq size h32 h8
  have hhalf : (size / 4 - 8 + 1) / 2 = (size / 4 - 8) / 2 := by omega
  have h := show_qpu_fragment_natCast (ptrAt file 8) (size / 4 - 8) (by omega)
  rw [hhalf] at h
  have hrun : qpu_dis_file (some file) size ((size / 4 - 8) / 2) =
      some ((List.range ((size / 4 - 8) / 2)).map (specRecord (ptrAt file 8)),
        (List.range ((size / 4 - 8) / 2)).flatMap
          (fun k => [2 * k, 2 * k + 1, 2 * k, 2 * k + 1])) := by
    unfold qpu_dis_file
    rw [hlen]
    exact h
  refine ⟨hlen, by omega, _, hrun, ?_⟩
  · intro idx hidx
    have := mem_pair_reads ((size / 4 - 8) / 2) idx hidx
    omega

/-- Witness for C17, amended: a file of 48 bytes, twelve words. -/
theorem qpu_dis_file_even_word_count_witness :
    48 < 2 ^ 32 ∧ 8 ≤ 48 / 4 ∧ 48 / 4 % 2 = 0 ∧
    disLength 48 = ((48 / 4 - 8 : Nat) : Int) ∧
    (48 / 4 - 8) % 2 = 0 ∧
    ∃ reads,
      qpu_dis_file (some countBuf) 48 ((48 / 4 - 8) / 2) =
        some ((List.range ((48 / 4 - 8) / 2)).map (specRecord (ptrAt countBuf 8)), reads) ∧
      ∀ idx ∈ reads, 8 + idx < 48 / 4 :=
  ⟨by decide, by decide, by decide,
   qpu_dis_file_even_word_count countBuf 48 (by decide) (by decide) (by decide)⟩

end QpuSniff
